import Mathlib

/-!
Shallow embedding of `src/fast-set.ts` (class `FastSet`), a growable bit-vector
set of non-negative integers, together with proofs about its specification.

JavaScript numbers are modelled as `Nat` where the program only ever produces
non-negative values below `2 ^ 32` (words hold bits `0 .. 30` only); the few
places where JS 32-bit bitwise coercion matters (`~`, out-of-range array
reads) are modelled explicitly (`jsNot`, `List.getD _ _ 0`).  The mutable
`size` field is modelled as `Int`, matching JS signed arithmetic.  While loops
are modelled with structural fuel recursion; the fuel chosen is provably
sufficient on every state the program can reach.
-/

/-- `BITS_PER_NUMBER` from `src/fast-set.ts`: only the lower 31 of the 32
bits supported by JS bitwise operators are used. -/
def BITS_PER_NUMBER : Nat := 31

/-- The `FastSet` object state: its `vectors` array of words and its `size`
field. -/
structure FastSet where
  vectors : List Nat
  size : Int
deriving DecidableEq, Repr

/-- `get capacity()`: `this.vectors.length * BITS_PER_NUMBER`. -/
def capacity (s : FastSet) : Nat :=
  s.vectors.length * BITS_PER_NUMBER

/-- `getVectorIndex(value)`: `Math.floor(value / BITS_PER_NUMBER)`. -/
def getVectorIndex (value : Nat) : Nat :=
  value / BITS_PER_NUMBER

/-- `getBit(vector, index)`: `(vector & (1 << index)) > 0 ? '1' : '0'`. -/
def getBit (vector : Nat) (index : Nat) : Char :=
  if 0 < vector &&& (1 <<< index) then '1' else '0'

/-- JS `~v` on a 32-bit coerced number, read back as an unsigned 32-bit bit
pattern: the bitwise complement of `v % 2^32` within 32 bits. -/
def jsNot (v : Nat) : Nat :=
  2 ^ 32 - 1 - v % 2 ^ 32

/-- JS array assignment `arr[i] = x`.  In range it updates in place; past the
end it extends the array (JS would leave holes, which this program only ever
reads through bitwise operators that coerce them to `0`, hence the `0`
padding; in fact every assignment this program performs has `i ≤ arr.length`,
so no padding ever arises). -/
def jsArraySet (l : List Nat) (i : Nat) (x : Nat) : List Nat :=
  if i < l.length then l.set i x
  else l ++ List.replicate (i - l.length) 0 ++ [x]

/-- The `while (value > this.capacity)` loop of `maybeGrowVectors`, with
structural fuel.  Each iteration pushes `2 * vectors.length` zero words.
With a non-empty starting array (true in every reachable state) `value + 1`
units of fuel are provably enough for the guard to fail before fuel runs out;
on an empty array the JS loop would never terminate for `value ≥ 1`. -/
def maybeGrowAux : Nat → List Nat → Nat → List Nat
  | 0, vectors, _ => vectors
  | fuel + 1, vectors, value =>
    if vectors.length * BITS_PER_NUMBER < value then
      maybeGrowAux fuel (vectors ++ List.replicate (2 * vectors.length) 0) value
    else
      vectors

/-- `maybeGrowVectors(value)`: grow `this.vectors` while
`value > this.capacity`, pushing `2 * this.vectors.length` zeros per step. -/
def maybeGrowVectors (vectors : List Nat) (value : Nat) : List Nat :=
  maybeGrowAux (value + 1) vectors value

/-- `on(value)` (`on` is a Lean keyword, hence `turnOn`): grow as needed, then set the bit for `value` if it is `'0'`.
Returns whether the bit changed, paired with the updated object state.
An out-of-range word read (`this.vectors[vectorIndex]` beyond the array,
which happens exactly when `value` equals the current capacity) yields
`undefined`, which the bitwise operators coerce to `0`. -/
def turnOn (s : FastSet) (value : Nat) : Bool × FastSet :=
  let vectors := maybeGrowVectors s.vectors value
  let vectorIndex := getVectorIndex value
  let vector := vectors.getD vectorIndex 0
  let bitIndex := value % BITS_PER_NUMBER
  let bit := getBit vector bitIndex
  if bit = '0' then
    let mask := 1 <<< bitIndex
    let vector' := vector ||| mask
    (true, { s with vectors := jsArraySet vectors vectorIndex vector' })
  else
    (false, { s with vectors := vectors })

/-- `off(value)`: if the bit for `value` is `'1'`, apply the source's mask
`~vector | (0 << bitIndex)` (which equals `~vector`) with `&=`.  Returns
whether a bit changed, paired with the updated object state. -/
def off (s : FastSet) (value : Nat) : Bool × FastSet :=
  let vectorIndex := getVectorIndex value
  if vectorIndex < s.vectors.length then
    let vector := s.vectors.getD vectorIndex 0
    let bitIndex := value % BITS_PER_NUMBER
    let bit := getBit vector bitIndex
    if bit = '1' then
      let mask := jsNot vector ||| (0 <<< bitIndex)
      let vector' := vector &&& mask
      (true, { s with vectors := jsArraySet s.vectors vectorIndex vector' })
    else
      (false, s)
  else
    (false, s)

/-- `add(value)`: `on`, incrementing `size` when the bit changed. -/
def add (s : FastSet) (value : Nat) : FastSet :=
  let r := turnOn s value
  if r.1 then { r.2 with size := r.2.size + 1 } else r.2

/-- `remove(value)`: `off`, decrementing `size` when a bit changed. -/
def remove (s : FastSet) (value : Nat) : FastSet :=
  let r := off s value
  if r.1 then { r.2 with size := r.2.size - 1 } else r.2

/-- `constructor(values)`: start from `vectors = [0]`, `size = 0` and `add`
each value in order. -/
def FastSet.new (values : List Nat) : FastSet :=
  values.foldl add { vectors := [0], size := 0 }

/-- The inner `while (result > 0)` loop of `operation`: push
`i * BITS_PER_NUMBER + bitIndex` for each set bit, shifting `result` right
(`>>>= 1`).  Structural fuel; `result + 1` units are always sufficient since
`result` at least halves each iteration. -/
def collectBitsAux : Nat → Nat → Nat → Nat → List Nat
  | 0, _, _, _ => []
  | fuel + 1, result, bitIndex, i =>
    if 0 < result then
      (if result % 2 = 1 then [i * BITS_PER_NUMBER + bitIndex] else []) ++
        collectBitsAux fuel (result / 2) (bitIndex + 1) i
    else
      []

/-- The values pushed by decoding `result` starting at `bitIndex` within
word `i`. -/
def collectBits (result : Nat) (bitIndex : Nat) (i : Nat) : List Nat :=
  collectBitsAux (result + 1) result bitIndex i

/-- The outer `for (let i = 0; i < maxVectorsLength; i++)` loop of
`operation`, with its early `break` as soon as `i >= other.vectors.length`.
Structural recursion on the remaining iteration count. -/
def operationLoop (sv ov : List Nat) (callback : Nat → Nat → Nat) :
    Nat → Nat → List Nat
  | 0, _ => []
  | count + 1, i =>
    if ov.length ≤ i then []
    else
      let thisVector := sv.getD i 0
      let otherVector := ov.getD i 0
      let result := callback thisVector otherVector
      collectBits result 0 i ++ operationLoop sv ov callback count (i + 1)

/-- The list `values` accumulated by `operation` before it constructs the
result set. -/
def operationValues (s other : FastSet) (callback : Nat → Nat → Nat) :
    List Nat :=
  let maxVectorsLength := max s.vectors.length other.vectors.length
  operationLoop s.vectors other.vectors callback maxVectorsLength 0

/-- `operation(other, callback)`: decode the per-word callback results into
`values` and return `new FastSet(values)`. -/
def operation (s other : FastSet) (callback : Nat → Nat → Nat) : FastSet :=
  FastSet.new (operationValues s other callback)

/-- `union(other)`: `operation` with `(vector, otherVector) => vector | otherVector`. -/
def union (s other : FastSet) : FastSet :=
  operation s other fun vector otherVector => vector ||| otherVector

/-- `intersection(other)`: `operation` with `(vector, otherVector) => vector & otherVector`. -/
def intersection (s other : FastSet) : FastSet :=
  operation s other fun vector otherVector => vector &&& otherVector

/-- `difference(other)`: `operation` with `(vector, otherVector) => vector & ~otherVector`. -/
def difference (s other : FastSet) : FastSet :=
  operation s other fun vector otherVector => vector &&& jsNot otherVector

/-- The `while (vectors[vectors.length - 1] === 0) vectors.pop()` loop of
`toHashKey`: drop zero words from the end (all of them if every word is
zero — `vectors[-1]` is `undefined`, which is not `=== 0`, so the loop then
stops on the empty array). -/
def stripTrailingZeros (l : List Nat) : List Nat :=
  ((l.reverse).dropWhile (fun vector => vector == 0)).reverse

/-- One word rendered as JS `vector.toString(16)`: lowercase base-16 digits,
no padding, `"0"` for zero. -/
def toHexString (vector : Nat) : String :=
  String.mk (Nat.toDigits 16 vector)

/-- `toHashKey()`: strip trailing zero words from a copy, render each word in
hex and concatenate highest-index word first (the source `unshift`s while
walking left to right, i.e. reverses). -/
def toHashKey (s : FastSet) : String :=
  let vectors := stripTrailingZeros s.vectors
  String.join ((vectors.map (fun vector => toHexString vector)).reverse)

/-- Membership of `value` in the set, per the data model (spec §3/§4.2
`contains`): the word index is in range and that word's bit is set. -/
def memb (s : FastSet) (value : Nat) : Bool :=
  decide (getVectorIndex value < s.vectors.length) &&
    (getBit (s.vectors.getD (getVectorIndex value) 0)
      (value % BITS_PER_NUMBER) == '1')

/-- Number of set bits of one word, with structural fuel (`n + 1` is always
enough). -/
def popcountAux : Nat → Nat → Nat
  | 0, _ => 0
  | fuel + 1, n => if 0 < n then n % 2 + popcountAux fuel (n / 2) else 0

/-- Number of set bits of one word. -/
def popcountNat (n : Nat) : Nat :=
  popcountAux (n + 1) n

/-- `popcount(concat(words))` from spec §3: total number of set bits across
the word array. -/
def popcountWords (l : List Nat) : Nat :=
  (l.map popcountNat).sum

/-- Every word of the set fits in `BITS_PER_NUMBER` bits.  This holds in
every reachable state and is the hypothesis under which word arrays are
determined by membership. -/
def Valid (s : FastSet) : Prop :=
  ∀ w ∈ s.vectors, w < 2 ^ BITS_PER_NUMBER

instance (s : FastSet) : Decidable (Valid s) := by
  unfold Valid; infer_instance

/-- Bit-level form of validity: no word, read through `getD`, has a bit at
position `BITS_PER_NUMBER` or above.  Implied by `Valid` and preserved by
every mutation of the program. -/
def ValidB (s : FastSet) : Prop :=
  ∀ i j, BITS_PER_NUMBER ≤ j → (s.vectors.getD i 0).testBit j = false

/-- Dummy object used as the `getD` default for store (heap) reads; never
actually read at a valid reference. -/
def noSet : FastSet := { vectors := [], size := 0 }

/-- A tiny heap model for the frame claim: objects live in a store addressed
by index, and `this.add(value)` mutates the object at reference `r` in
place. -/
def storeAdd (st : List FastSet) (r : Nat) (value : Nat) : List FastSet :=
  st.set r (add (st.getD r noSet) value)

/-- `new FastSet(values)` in the heap model: allocate a fresh object with
`vectors = [0]`, `size = 0` at the end of the store, then run the
constructor's `values.forEach(value => this.add(value))` against that
reference.  Returns the new store and the fresh reference. -/
def newFastSetStore (st : List FastSet) (values : List Nat) :
    List FastSet × Nat :=
  let r := st.length
  let st' := st ++ [{ vectors := [0], size := 0 }]
  (values.foldl (fun st v => storeAdd st r v) st', r)

/-- `operation` in the heap model: read both operand objects, decode the
callback results, and construct the result with `new FastSet(values)`.  The
only store writes are those of the fresh object's constructor. -/
def operationStore (st : List FastSet) (thisRef otherRef : Nat)
    (callback : Nat → Nat → Nat) : List FastSet × Nat :=
  let thisSet := st.getD thisRef noSet
  let otherSet := st.getD otherRef noSet
  newFastSetStore st (operationValues thisSet otherSet callback)

/-- `union` in the heap model. -/
def unionStore (st : List FastSet) (thisRef otherRef : Nat) :
    List FastSet × Nat :=
  operationStore st thisRef otherRef fun vector otherVector =>
    vector ||| otherVector

/-- `intersection` in the heap model. -/
def intersectionStore (st : List FastSet) (thisRef otherRef : Nat) :
    List FastSet × Nat :=
  operationStore st thisRef otherRef fun vector otherVector =>
    vector &&& otherVector

/-- `difference` in the heap model. -/
def differenceStore (st : List FastSet) (thisRef otherRef : Nat) :
    List FastSet × Nat :=
  operationStore st thisRef otherRef fun vector otherVector =>
    vector &&& jsNot otherVector

/-! ### Bit-level helper lemmas -/

theorem shiftLeft_one_eq (i : Nat) : 1 <<< i = 2 ^ i := by
  rw [Nat.shiftLeft_eq, Nat.one_mul]

theorem land_two_pow (w i : Nat) :
    w &&& 2 ^ i = if w.testBit i then 2 ^ i else 0 := by
  apply Nat.eq_of_testBit_eq
  intro j
  rw [Nat.testBit_land]
  by_cases h : i = j
  · subst h
    rw [Nat.testBit_two_pow_self]
    by_cases hw : w.testBit i
    · simp [hw, Nat.testBit_two_pow_self]
    · simp [hw]
  · rw [Nat.testBit_two_pow_of_ne h]
    by_cases hw : w.testBit i <;> simp [hw, Nat.testBit_two_pow_of_ne h]

theorem getBit_eq_one_iff (w i : Nat) : getBit w i = '1' ↔ w.testBit i = true := by
  unfold getBit
  rw [shiftLeft_one_eq, land_two_pow]
  by_cases hw : w.testBit i
  · simp [hw, Nat.two_pow_pos]
  · simp [hw]

theorem getBit_eq_zero_iff (w i : Nat) : getBit w i = '0' ↔ w.testBit i = false := by
  unfold getBit
  rw [shiftLeft_one_eq, land_two_pow]
  by_cases hw : w.testBit i
  · simp [hw, Nat.two_pow_pos]
  · simp [hw]

theorem jsNot_testBit (v j : Nat) :
    (jsNot v).testBit j = (decide (j < 32) && !(v.testBit j && decide (j < 32))) := by
  have hlt : v % 2 ^ 32 < 2 ^ 32 := Nat.mod_lt _ (Nat.two_pow_pos 32)
  have : jsNot v = 2 ^ 32 - (v % 2 ^ 32 + 1) := by
    unfold jsNot; omega
  rw [this, Nat.testBit_two_pow_sub_succ hlt, Nat.testBit_mod_two_pow]
  by_cases h : j < 32 <;> simp [h, Bool.and_comm]

theorem land_jsNot_self (v : Nat) : v &&& jsNot v = 0 := by
  apply Nat.eq_of_testBit_eq
  intro j
  rw [Nat.testBit_land, jsNot_testBit, Nat.zero_testBit]
  by_cases h : v.testBit j <;> by_cases h32 : j < 32 <;> simp [h, h32]

/-! ### `List.getD` helper lemmas -/

theorem getD_ge {α : Type} (l : List α) (d : α) (i : Nat) (h : l.length ≤ i) :
    l.getD i d = d := by
  induction l generalizing i with
  | nil => rfl
  | cons x xs ih =>
    cases i with
    | zero => simp at h
    | succ n =>
      simp only [List.getD_cons_succ]
      exact ih n (by simpa using h)

theorem getD_eq_get {α : Type} (l : List α) (d : α) (i : Nat) (h : i < l.length) :
    l.getD i d = l.get ⟨i, h⟩ := by
  induction l generalizing i with
  | nil => simp at h
  | cons x xs ih =>
    cases i with
    | zero => rfl
    | succ n => exact ih n (by simpa using h)

theorem getD_append_lt {α : Type} (l t : List α) (d : α) (i : Nat)
    (h : i < l.length) : (l ++ t).getD i d = l.getD i d := by
  induction l generalizing i with
  | nil => simp at h
  | cons x xs ih =>
    cases i with
    | zero => rfl
    | succ n => exact ih n (by simpa using h)

theorem getD_append_ge {α : Type} (l t : List α) (d : α) (i : Nat)
    (h : l.length ≤ i) : (l ++ t).getD i d = t.getD (i - l.length) d := by
  induction l generalizing i with
  | nil => simp
  | cons x xs ih =>
    cases i with
    | zero => simp at h
    | succ n =>
      simp only [List.cons_append, List.getD_cons_succ]
      rw [ih n (by simpa using h)]
      simp [Nat.succ_sub_succ]

theorem getD_replicate {α : Type} (d : α) (k i : Nat) :
    (List.replicate k d).getD i d = d := by
  induction k generalizing i with
  | zero => rfl
  | succ n ih =>
    cases i with
    | zero => rfl
    | succ m => exact ih m

theorem getD_append_zeros (l : List Nat) (k i : Nat) :
    (l ++ List.replicate k 0).getD i 0 = l.getD i 0 := by
  by_cases h : i < l.length
  · exact getD_append_lt l _ 0 i h
  · rw [getD_append_ge l _ 0 i (Nat.le_of_not_lt h), getD_replicate,
      getD_ge l 0 i (Nat.le_of_not_lt h)]

theorem getD_set_eq {α : Type} (l : List α) (d x : α) (i : Nat)
    (h : i < l.length) : (l.set i x).getD i d = x := by
  induction l generalizing i with
  | nil => simp at h
  | cons y ys ih =>
    cases i with
    | zero => rfl
    | succ n => exact ih n (by simpa using h)

theorem getD_set_ne {α : Type} (l : List α) (d x : α) (i j : Nat)
    (h : j ≠ i) : (l.set i x).getD j d = l.getD j d := by
  induction l generalizing i j with
  | nil => rfl
  | cons y ys ih =>
    cases i with
    | zero =>
      cases j with
      | zero => exact absurd rfl h
      | succ m => rfl
    | succ n =>
      cases j with
      | zero => rfl
      | succ m => exact ih n m (by omega)

theorem set_getD_self {α : Type} (l : List α) (d : α) (i : Nat)
    (h : i < l.length) : l.set i (l.getD i d) = l := by
  induction l generalizing i with
  | nil => rfl
  | cons y ys ih =>
    cases i with
    | zero => rfl
    | succ n =>
      show y :: ys.set n (ys.getD n d) = y :: ys
      rw [ih n (by simpa using h)]

theorem jsArraySet_getD (l : List Nat) (i x j : Nat) :
    (jsArraySet l i x).getD j 0 = if j = i then x else l.getD j 0 := by
  unfold jsArraySet
  by_cases h : i < l.length
  · simp only [h, if_true]
    by_cases hj : j = i
    · subst hj; rw [getD_set_eq l 0 x j h, if_pos rfl]
    · rw [getD_set_ne l 0 x i j hj, if_neg hj]
  · simp only [h, if_false]
    have hle : l.length ≤ i := Nat.le_of_not_lt h
    rw [List.append_assoc]
    by_cases hjl : j < l.length
    · rw [getD_append_lt l _ 0 j hjl, if_neg (by omega)]
    · have hjle : l.length ≤ j := Nat.le_of_not_lt hjl
      rw [getD_append_ge l _ 0 j hjle, getD_ge l 0 j hjle]
      by_cases hji : j = i
      · subst hji
        rw [getD_append_ge _ _ 0 _ (by simp), if_pos rfl]
        simp
      · rw [if_neg hji]
        by_cases hlt : j - l.length < i - l.length
        · rw [getD_append_lt _ _ 0 _ (by simpa using hlt), getD_replicate]
        · rw [getD_ge]
          simp only [List.length_append, List.length_replicate, List.length_cons,
            List.length_nil]
          omega

theorem jsArraySet_length (l : List Nat) (i x : Nat) :
    (jsArraySet l i x).length = if i < l.length then l.length else i + 1 := by
  unfold jsArraySet
  by_cases h : i < l.length
  · simp [h]
  · have hle : l.length ≤ i := Nat.le_of_not_lt h
    simp [h]
    omega

/-! ### Growth loop lemmas -/

theorem BITS_eq : BITS_PER_NUMBER = 31 := rfl

theorem capacity_def (s : FastSet) :
    capacity s = s.vectors.length * BITS_PER_NUMBER := rfl

theorem maybeGrowAux_exists_append (fuel : Nat) :
    ∀ (l : List Nat) (v : Nat),
      ∃ k, maybeGrowAux fuel l v = l ++ List.replicate k 0 := by
  induction fuel with
  | zero => intro l v; exact ⟨0, by simp [maybeGrowAux]⟩
  | succ n ih =>
    intro l v
    by_cases h : l.length * BITS_PER_NUMBER < v
    · obtain ⟨k, hk⟩ := ih (l ++ List.replicate (2 * l.length) 0) v
      refine ⟨2 * l.length + k, ?_⟩
      simp only [maybeGrowAux, h, if_true]
      rw [hk, List.append_assoc, ← List.replicate_add]
    · exact ⟨0, by simp [maybeGrowAux, h]⟩

theorem maybeGrow_exists_append (l : List Nat) (v : Nat) :
    ∃ k, maybeGrowVectors l v = l ++ List.replicate k 0 :=
  maybeGrowAux_exists_append (v + 1) l v

theorem maybeGrow_getD (l : List Nat) (v i : Nat) :
    (maybeGrowVectors l v).getD i 0 = l.getD i 0 := by
  obtain ⟨k, hk⟩ := maybeGrow_exists_append l v
  rw [hk, getD_append_zeros]

theorem maybeGrow_length_ge (l : List Nat) (v : Nat) :
    l.length ≤ (maybeGrowVectors l v).length := by
  obtain ⟨k, hk⟩ := maybeGrow_exists_append l v
  simp [hk]

theorem maybeGrowAux_capacity (fuel : Nat) :
    ∀ (l : List Nat) (v : Nat), 0 < l.length →
      v ≤ l.length * BITS_PER_NUMBER + 62 * fuel →
      v ≤ (maybeGrowAux fuel l v).length * BITS_PER_NUMBER := by
  induction fuel with
  | zero =>
    intro l v _ hb
    simpa [maybeGrowAux] using hb
  | succ n ih =>
    intro l v hpos hb
    by_cases h : l.length * BITS_PER_NUMBER < v
    · simp only [maybeGrowAux, h, if_true]
      have hlen : (l ++ List.replicate (2 * l.length) 0).length = 3 * l.length := by
        rw [List.length_append, List.length_replicate]; omega
      apply ih
      · rw [hlen]; omega
      · rw [hlen]
        rw [BITS_eq] at hb ⊢
        omega
    · simp only [maybeGrowAux, h, if_false]
      omega

theorem maybeGrow_capacity (l : List Nat) (v : Nat) (hpos : 0 < l.length) :
    v ≤ (maybeGrowVectors l v).length * BITS_PER_NUMBER := by
  apply maybeGrowAux_capacity (v + 1) l v hpos
  have : 0 ≤ l.length * BITS_PER_NUMBER := Nat.zero_le _
  omega

theorem maybeGrow_eq_self (l : List Nat) (v : Nat)
    (h : v ≤ l.length * BITS_PER_NUMBER) : maybeGrowVectors l v = l := by
  unfold maybeGrowVectors
  simp [maybeGrowAux, Nat.not_lt.mpr h]

/-! ### Membership and `add` lemmas -/

theorem memb_eq_testBit (s : FastSet) (v : Nat) :
    memb s v = (s.vectors.getD (getVectorIndex v) 0).testBit
      (v % BITS_PER_NUMBER) := by
  unfold memb
  by_cases h : getVectorIndex v < s.vectors.length
  · rw [decide_eq_true h, Bool.true_and]
    by_cases hb : (s.vectors.getD (getVectorIndex v) 0).testBit (v % BITS_PER_NUMBER)
    · rw [(getBit_eq_one_iff _ _).mpr hb, hb]; rfl
    · rw [Bool.not_eq_true] at hb
      rw [(getBit_eq_zero_iff _ _).mpr hb, hb]; rfl
  · rw [decide_eq_false h, Bool.false_and,
      getD_ge _ 0 _ (Nat.le_of_not_lt h), Nat.zero_testBit]

theorem turnOn_fst (s : FastSet) (v : Nat) :
    (turnOn s v).1 = !(memb s v) := by
  simp only [turnOn]
  rw [memb_eq_testBit, maybeGrow_getD]
  by_cases hb : (s.vectors.getD (getVectorIndex v) 0).testBit (v % BITS_PER_NUMBER)
  · have hcond : ¬(getBit (s.vectors.getD (getVectorIndex v) 0)
        (v % BITS_PER_NUMBER) = '0') := by
      rw [(getBit_eq_one_iff _ _).mpr hb]; decide
    rw [if_neg hcond, hb]
    rfl
  · rw [Bool.not_eq_true] at hb
    have hcond : getBit (s.vectors.getD (getVectorIndex v) 0)
        (v % BITS_PER_NUMBER) = '0' := (getBit_eq_zero_iff _ _).mpr hb
    rw [if_pos hcond, hb]
    rfl

theorem turnOn_size (s : FastSet) (v : Nat) : (turnOn s v).2.size = s.size := by
  simp only [turnOn]
  by_cases h : getBit ((maybeGrowVectors s.vectors v).getD (getVectorIndex v) 0)
      (v % BITS_PER_NUMBER) = '0'
  · rw [if_pos h]
  · rw [if_neg h]

theorem add_size (s : FastSet) (v : Nat) :
    (add s v).size = s.size + if memb s v then 0 else 1 := by
  simp only [add]
  rw [turnOn_fst]
  by_cases h : memb s v <;> simp [h, turnOn_size]

theorem turnOn_getD (s : FastSet) (v j : Nat) :
    (turnOn s v).2.vectors.getD j 0 =
      if memb s v = false ∧ j = getVectorIndex v then
        s.vectors.getD j 0 ||| 2 ^ (v % BITS_PER_NUMBER)
      else s.vectors.getD j 0 := by
  have hfst := turnOn_fst s v
  simp only [turnOn] at hfst ⊢
  by_cases h : getBit ((maybeGrowVectors s.vectors v).getD (getVectorIndex v) 0)
      (v % BITS_PER_NUMBER) = '0'
  · rw [if_pos h] at hfst ⊢
    have hm : memb s v = false := by
      have hfst' : true = !memb s v := hfst
      cases hmv : memb s v
      · rfl
      · rw [hmv] at hfst'; exact absurd hfst' (by decide)
    show (jsArraySet (maybeGrowVectors s.vectors v) (getVectorIndex v)
        ((maybeGrowVectors s.vectors v).getD (getVectorIndex v) 0 |||
          1 <<< (v % BITS_PER_NUMBER))).getD j 0 = _
    rw [jsArraySet_getD]
    simp only [maybeGrow_getD, shiftLeft_one_eq]
    by_cases hj : j = getVectorIndex v
    · rw [if_pos hj,
        if_pos (show memb s v = false ∧ j = getVectorIndex v from ⟨hm, hj⟩), hj]
    · rw [if_neg hj, if_neg (fun hc => hj hc.2)]
  · rw [if_neg h] at hfst ⊢
    have hm : memb s v = true := by
      have hfst' : false = !memb s v := hfst
      cases hmv : memb s v
      · rw [hmv] at hfst'; exact absurd hfst' (by decide)
      · rfl
    rw [if_neg (fun hc => absurd (hm.symm.trans hc.1) (by decide))]
    exact maybeGrow_getD s.vectors v j

theorem add_getD (s : FastSet) (v j : Nat) :
    (add s v).vectors.getD j 0 =
      if memb s v = false ∧ j = getVectorIndex v then
        s.vectors.getD j 0 ||| 2 ^ (v % BITS_PER_NUMBER)
      else s.vectors.getD j 0 := by
  simp only [add]
  by_cases h : (turnOn s v).1 = true
  · rw [if_pos h]
    exact turnOn_getD s v j
  · rw [if_neg h]
    exact turnOn_getD s v j

theorem value_decomp (v : Nat) :
    getVectorIndex v * BITS_PER_NUMBER + v % BITS_PER_NUMBER = v := by
  unfold getVectorIndex
  rw [Nat.mul_comm]
  exact Nat.div_add_mod v BITS_PER_NUMBER

theorem value_decomp_unique (idx b v : Nat) (hb : b < BITS_PER_NUMBER)
    (h : v = idx * BITS_PER_NUMBER + b) :
    idx = getVectorIndex v ∧ b = v % BITS_PER_NUMBER := by
  subst h
  have h1 : idx * BITS_PER_NUMBER + b = BITS_PER_NUMBER * idx + b := by
    rw [Nat.mul_comm]
  unfold getVectorIndex
  constructor
  · rw [h1, Nat.mul_add_div (by decide : 0 < BITS_PER_NUMBER), Nat.div_eq_of_lt hb]
    exact (Nat.add_zero idx).symm
  · rw [h1, Nat.mul_add_mod, Nat.mod_eq_of_lt hb]

theorem add_memb (s : FastSet) (v u : Nat) :
    memb (add s v) u = (memb s u || u == v) := by
  rw [memb_eq_testBit (add s v) u, add_getD, memb_eq_testBit s u]
  by_cases hm : memb s v
  · rw [if_neg (fun hc => absurd (hm.symm.trans hc.1) (by decide))]
    by_cases huv : u = v
    · subst huv
      rw [memb_eq_testBit] at hm
      rw [hm, beq_self_eq_true]
      rfl
    · rw [beq_eq_false_iff_ne.mpr huv, Bool.or_false]
  · rw [Bool.not_eq_true] at hm
    by_cases hj : getVectorIndex u = getVectorIndex v
    · rw [if_pos (show memb s v = false ∧ getVectorIndex u = getVectorIndex v from
        ⟨hm, hj⟩), Nat.testBit_lor]
      by_cases huv : u = v
      · subst huv
        rw [Nat.testBit_two_pow_self, beq_self_eq_true]
      · have hbne : v % BITS_PER_NUMBER ≠ u % BITS_PER_NUMBER := by
          intro hc
          exact huv (by rw [← value_decomp u, ← value_decomp v, hj, hc])
        rw [Nat.testBit_two_pow_of_ne hbne, Bool.or_false,
          beq_eq_false_iff_ne.mpr huv, Bool.or_false]
    · rw [if_neg (fun hc => hj hc.2)]
      have huv : u ≠ v := fun hc => hj (by rw [hc])
      rw [beq_eq_false_iff_ne.mpr huv, Bool.or_false]

/-! ### Validity preservation -/

theorem valid_validB (s : FastSet) (h : Valid s) : ValidB s := by
  intro i j hj
  by_cases hi : i < s.vectors.length
  · have hmem : s.vectors.getD i 0 ∈ s.vectors := by
      rw [getD_eq_get _ _ _ hi]
      exact List.get_mem _ _ _
    have hw := h _ hmem
    exact Nat.testBit_lt_two_pow
      (lt_of_lt_of_le hw (Nat.pow_le_pow_right (by decide) hj))
  · rw [getD_ge _ _ _ (Nat.le_of_not_lt hi), Nat.zero_testBit]

theorem validB_add (s : FastSet) (v : Nat) (h : ValidB s) : ValidB (add s v) := by
  intro i j hj
  rw [add_getD]
  by_cases hc : memb s v = false ∧ i = getVectorIndex v
  · rw [if_pos hc, Nat.testBit_lor, h i j hj, Bool.false_or]
    apply Nat.testBit_two_pow_of_ne
    have := Nat.mod_lt v (show 0 < BITS_PER_NUMBER by decide)
    omega
  · rw [if_neg hc]
    exact h i j hj

theorem validB_empty : ValidB { vectors := [0], size := 0 } := by
  intro i j _
  have h0 : ({ vectors := [0], size := 0 } : FastSet).vectors.getD i 0 = 0 := by
    show List.getD [0] i 0 = 0
    cases i <;> rfl
  rw [h0, Nat.zero_testBit]

theorem validB_foldl (l : List Nat) :
    ∀ s : FastSet, ValidB s → ValidB (l.foldl add s) := by
  induction l with
  | nil => intro s h; exact h
  | cons x xs ih => intro s h; exact ih _ (validB_add s x h)

theorem validB_new (l : List Nat) : ValidB (FastSet.new l) :=
  validB_foldl l _ validB_empty

/-! ### Constructor membership and size -/

theorem memb_foldl_add (l : List Nat) :
    ∀ (s : FastSet) (u : Nat),
      memb (l.foldl add s) u = (memb s u || decide (u ∈ l)) := by
  induction l with
  | nil => intro s u; simp
  | cons x xs ih =>
    intro s u
    rw [List.foldl_cons, ih, add_memb]
    by_cases h : u = x
    · subst h
      simp [List.mem_cons]
    · rw [beq_eq_false_iff_ne.mpr h, Bool.or_false]
      simp [List.mem_cons, h]

theorem memb_empty (u : Nat) : memb { vectors := [0], size := 0 } u = false := by
  rw [memb_eq_testBit]
  have h0 : ({ vectors := [0], size := 0 } : FastSet).vectors.getD
      (getVectorIndex u) 0 = 0 := by
    show List.getD [0] (getVectorIndex u) 0 = 0
    cases getVectorIndex u <;> rfl
  rw [h0, Nat.zero_testBit]

theorem memb_new (l : List Nat) (u : Nat) :
    memb (FastSet.new l) u = decide (u ∈ l) := by
  unfold FastSet.new
  rw [memb_foldl_add, memb_empty, Bool.false_or]

theorem foldl_add_congr (l : List Nat) :
    ∀ (s t : FastSet), (∀ u, memb s u = memb t u) → s.size = t.size →
      (∀ u, memb (l.foldl add s) u = memb (l.foldl add t) u) ∧
        (l.foldl add s).size = (l.foldl add t).size := by
  induction l with
  | nil => intro s t hm hs; exact ⟨hm, hs⟩
  | cons x xs ih =>
    intro s t hm hs
    rw [List.foldl_cons, List.foldl_cons]
    apply ih
    · intro u
      rw [add_memb, add_memb, hm u]
    · rw [add_size, add_size, hm x, hs]

theorem foldl_add_perm (l1 l2 : List Nat) (h : l1.Perm l2) :
    ∀ s : FastSet,
      (∀ u, memb (l1.foldl add s) u = memb (l2.foldl add s) u) ∧
        (l1.foldl add s).size = (l2.foldl add s).size := by
  induction h with
  | nil => intro s; exact ⟨fun _ => rfl, rfl⟩
  | cons x _ ih =>
    intro s
    rw [List.foldl_cons, List.foldl_cons]
    exact ih (add s x)
  | swap x y l =>
    intro s
    rw [List.foldl_cons, List.foldl_cons, List.foldl_cons, List.foldl_cons]
    apply foldl_add_congr
    · intro u
      rw [add_memb, add_memb, add_memb, add_memb, Bool.or_assoc, Bool.or_assoc,
        Bool.or_comm (u == y) (u == x)]
    · rw [add_size, add_size, add_size, add_size, add_memb, add_memb]
      by_cases hxy : x = y
      · subst hxy; rfl
      · rw [beq_eq_false_iff_ne.mpr (fun hc => hxy hc.symm),
          beq_eq_false_iff_ne.mpr hxy, Bool.or_false, Bool.or_false,
          add_right_comm]
  | trans _ _ ih1 ih2 =>
    intro s
    obtain ⟨hm1, hs1⟩ := ih1 s
    obtain ⟨hm2, hs2⟩ := ih2 s
    exact ⟨fun u => (hm1 u).trans (hm2 u), hs1.trans hs2⟩

/-! ### Trailing-zero stripping and the hash key -/

theorem strip_eq_rdropWhile (l : List Nat) :
    stripTrailingZeros l = List.rdropWhile (fun w => w == 0) l := rfl

theorem strip_append_zeros (l : List Nat) :
    ∃ k, l = stripTrailingZeros l ++ List.replicate k 0 := by
  have hsplit : stripTrailingZeros l ++ List.rtakeWhile (fun w => w == 0) l = l := by
    rw [strip_eq_rdropWhile]
    show (l.reverse.dropWhile _).reverse ++ (l.reverse.takeWhile _).reverse = l
    rw [← List.reverse_append, List.takeWhile_append_dropWhile, List.reverse_reverse]
  refine ⟨(List.rtakeWhile (fun w => w == 0) l).length, ?_⟩
  have hall : ∀ w ∈ List.rtakeWhile (fun w => w == 0) l, w = 0 := by
    intro w hw
    simpa using List.mem_rtakeWhile_imp hw
  conv_lhs => rw [← hsplit]
  exact congrArg (fun t => stripTrailingZeros l ++ t) (List.eq_replicate_of_mem hall)

theorem strip_getD (l : List Nat) (i : Nat) :
    (stripTrailingZeros l).getD i 0 = l.getD i 0 := by
  obtain ⟨k, hk⟩ := strip_append_zeros l
  conv_rhs => rw [hk]
  rw [getD_append_zeros]

theorem strip_getLast_ne (l : List Nat) (h : stripTrailingZeros l ≠ []) :
    (stripTrailingZeros l).getLast h ≠ 0 := by
  have h' : List.rdropWhile (fun w => w == 0) l ≠ [] := h
  have := List.rdropWhile_last_not (fun w => w == 0) l h'
  simpa using this

theorem length_not_lt_of_getD (a b : List Nat)
    (hgd : ∀ i, a.getD i 0 = b.getD i 0)
    (hb : ∀ h : b ≠ [], b.getLast h ≠ 0) : ¬ a.length < b.length := by
  intro hlt
  have hbne : b ≠ [] := by
    intro hc
    rw [hc] at hlt
    simp at hlt
  apply hb hbne
  have hlast : b.getLast hbne = b.getD (b.length - 1) 0 := by
    rw [List.getLast_eq_get, getD_eq_get b 0 (b.length - 1) (by omega)]
  rw [hlast, ← hgd (b.length - 1), getD_ge a 0 _ (by omega)]

theorem lists_eq_of_getD (s t : List Nat)
    (hgd : ∀ i, s.getD i 0 = t.getD i 0)
    (hs : ∀ h : s ≠ [], s.getLast h ≠ 0)
    (ht : ∀ h : t ≠ [], t.getLast h ≠ 0) : s = t := by
  have h1 := length_not_lt_of_getD s t hgd ht
  have h2 := length_not_lt_of_getD t s (fun i => (hgd i).symm) hs
  have hlen : s.length = t.length := by omega
  apply List.ext_get hlen
  intro i hi1 hi2
  rw [← getD_eq_get s 0 i hi1, ← getD_eq_get t 0 i hi2]
  exact hgd i

theorem strip_congr (l1 l2 : List Nat) (h : ∀ i, l1.getD i 0 = l2.getD i 0) :
    stripTrailingZeros l1 = stripTrailingZeros l2 := by
  apply lists_eq_of_getD
  · intro i
    rw [strip_getD, strip_getD]
    exact h i
  · exact strip_getLast_ne l1
  · exact strip_getLast_ne l2

theorem getD_congr_of_memb (A B : FastSet) (hA : ValidB A) (hB : ValidB B)
    (h : ∀ v, memb A v = memb B v) (i : Nat) :
    A.vectors.getD i 0 = B.vectors.getD i 0 := by
  apply Nat.eq_of_testBit_eq
  intro j
  by_cases hj : j < BITS_PER_NUMBER
  · have hv := h (i * BITS_PER_NUMBER + j)
    rw [memb_eq_testBit, memb_eq_testBit] at hv
    obtain ⟨hidx, hmod⟩ := value_decomp_unique i j (i * BITS_PER_NUMBER + j) hj rfl
    rw [← hidx, ← hmod] at hv
    exact hv
  · rw [hA i j (Nat.le_of_not_lt hj), hB i j (Nat.le_of_not_lt hj)]

theorem toHashKey_congr (A B : FastSet) (hA : ValidB A) (hB : ValidB B)
    (h : ∀ v, memb A v = memb B v) : toHashKey A = toHashKey B := by
  unfold toHashKey
  rw [strip_congr A.vectors B.vectors (getD_congr_of_memb A B hA hB h)]

/-! ### Decoding lemmas for `operation` -/

theorem collectBitsAux_mem (fuel : Nat) :
    ∀ (r b i u : Nat), r < 2 ^ fuel →
      (u ∈ collectBitsAux fuel r b i ↔
        ∃ j, r.testBit j = true ∧ u = i * BITS_PER_NUMBER + (b + j)) := by
  induction fuel with
  | zero =>
    intro r b i u hr
    have hr0 : r = 0 := by simpa using hr
    subst hr0
    simp [collectBitsAux]
  | succ n ih =>
    intro r b i u hr
    by_cases h0 : 0 < r
    · have hr2 : r / 2 < 2 ^ n := by
        rw [Nat.pow_succ] at hr
        omega
      simp only [collectBitsAux, h0, if_true, List.mem_append]
      rw [ih (r / 2) (b + 1) i u hr2]
      constructor
      · rintro (hmem | ⟨j, hbit, hu⟩)
        · by_cases hp : r % 2 = 1
          · rw [if_pos hp] at hmem
            simp only [List.mem_singleton] at hmem
            refine ⟨0, ?_, by omega⟩
            rw [Nat.testBit_zero]
            simpa using hp
          · rw [if_neg hp] at hmem
            simp at hmem
        · refine ⟨j + 1, ?_, by omega⟩
          rw [Nat.testBit_add_one]
          exact hbit
      · rintro ⟨j, hbit, hu⟩
        cases j with
        | zero =>
          left
          rw [Nat.testBit_zero] at hbit
          have hp : r % 2 = 1 := by simpa using hbit
          rw [if_pos hp]
          simp only [List.mem_singleton]
          omega
        | succ m =>
          right
          refine ⟨m, ?_, by omega⟩
          rw [Nat.testBit_add_one] at hbit
          exact hbit
    · have hr0 : r = 0 := by omega
      subst hr0
      simp [collectBitsAux]

theorem collectBits_mem (r b i u : Nat) :
    u ∈ collectBits r b i ↔
      ∃ j, r.testBit j = true ∧ u = i * BITS_PER_NUMBER + (b + j) :=
  collectBitsAux_mem (r + 1) r b i u
    (lt_of_lt_of_le (Nat.lt_two_pow r) (Nat.pow_le_pow_right (by decide) (by omega)))

theorem operationLoop_mem (sv ov : List Nat) (cb : Nat → Nat → Nat)
    (count : Nat) :
    ∀ (i u : Nat),
      u ∈ operationLoop sv ov cb count i ↔
        ∃ j, i ≤ j ∧ j < i + count ∧ j < ov.length ∧
          ∃ b, (cb (sv.getD j 0) (ov.getD j 0)).testBit b = true ∧
            u = j * BITS_PER_NUMBER + b := by
  induction count with
  | zero =>
    intro i u
    constructor
    · intro h
      simp [operationLoop] at h
    · rintro ⟨j, h1, h2, -⟩
      omega
  | succ n ih =>
    intro i u
    by_cases hbreak : ov.length ≤ i
    · simp only [operationLoop, if_pos hbreak]
      constructor
      · intro h
        simp at h
      · rintro ⟨j, h1, -, h3, -⟩
        omega
    · simp only [operationLoop, if_neg hbreak, List.mem_append]
      rw [collectBits_mem, ih (i + 1) u]
      constructor
      · rintro (⟨j, hbit, hu⟩ | ⟨j, h1, h2, h3, b, hbit, hu⟩)
        · refine ⟨i, le_refl i, by omega, by omega, j, hbit, ?_⟩
          rw [Nat.zero_add] at hu
          exact hu
        · exact ⟨j, by omega, by omega, h3, b, hbit, hu⟩
      · rintro ⟨j, h1, h2, h3, b, hbit, hu⟩
        by_cases hji : j = i
        · subst hji
          left
          exact ⟨b, hbit, by rw [hu, Nat.zero_add]⟩
        · right
          exact ⟨j, by omega, by omega, h3, b, hbit, hu⟩

theorem operationValues_mem (A B : FastSet) (cb : Nat → Nat → Nat) (u : Nat) :
    u ∈ operationValues A B cb ↔
      ∃ j, j < B.vectors.length ∧ ∃ b,
        (cb (A.vectors.getD j 0) (B.vectors.getD j 0)).testBit b = true ∧
        u = j * BITS_PER_NUMBER + b := by
  unfold operationValues
  rw [operationLoop_mem]
  constructor
  · rintro ⟨j, -, -, h3, b, hbit, hu⟩
    exact ⟨j, h3, b, hbit, hu⟩
  · rintro ⟨j, h3, b, hbit, hu⟩
    refine ⟨j, Nat.zero_le j, ?_, h3, b, hbit, hu⟩
    have hmax : B.vectors.length ≤ max A.vectors.length B.vectors.length :=
      le_max_right _ _
    omega

theorem operation_memb (A B : FastSet) (cb : Nat → Nat → Nat)
    (hcb : ∀ j b, BITS_PER_NUMBER ≤ b →
      (cb (A.vectors.getD j 0) (B.vectors.getD j 0)).testBit b = false)
    (u : Nat) :
    memb (operation A B cb) u =
      (decide (getVectorIndex u < B.vectors.length) &&
        (cb (A.vectors.getD (getVectorIndex u) 0)
          (B.vectors.getD (getVectorIndex u) 0)).testBit
            (u % BITS_PER_NUMBER)) := by
  unfold operation
  rw [memb_new]
  by_cases hidx : getVectorIndex u < B.vectors.length
  · by_cases hbit : (cb (A.vectors.getD (getVectorIndex u) 0)
        (B.vectors.getD (getVectorIndex u) 0)).testBit (u % BITS_PER_NUMBER) = true
    · have hin : u ∈ operationValues A B cb :=
        (operationValues_mem A B cb u).mpr
          ⟨getVectorIndex u, hidx, u % BITS_PER_NUMBER, hbit, (value_decomp u).symm⟩
      rw [decide_eq_true hin, decide_eq_true hidx, hbit]
      rfl
    · rw [Bool.not_eq_true] at hbit
      have hnin : u ∉ operationValues A B cb := by
        intro hin
        obtain ⟨j, hj, b, hb, hu⟩ := (operationValues_mem A B cb u).mp hin
        have hblt : b < BITS_PER_NUMBER := by
          by_contra hge
          rw [hcb j b (Nat.le_of_not_lt hge)] at hb
          exact absurd hb (by decide)
        obtain ⟨hj', hb'⟩ := value_decomp_unique j b u hblt hu
        rw [hj', hb'] at hb
        rw [hbit] at hb
        exact absurd hb (by decide)
      rw [decide_eq_false hnin, hbit, Bool.and_false]
  · have hnin : u ∉ operationValues A B cb := by
      intro hin
      obtain ⟨j, hj, b, hb, hu⟩ := (operationValues_mem A B cb u).mp hin
      have hblt : b < BITS_PER_NUMBER := by
        by_contra hge
        rw [hcb j b (Nat.le_of_not_lt hge)] at hb
        exact absurd hb (by decide)
      obtain ⟨hj', -⟩ := value_decomp_unique j b u hblt hu
      exact hidx (hj' ▸ hj)
    rw [decide_eq_false hnin, decide_eq_false hidx, Bool.false_and]

theorem index_lt_iff (u n : Nat) :
    (getVectorIndex u < n) ↔ (u < n * BITS_PER_NUMBER) := by
  unfold getVectorIndex
  exact Nat.div_lt_iff_lt_mul (by decide : 0 < BITS_PER_NUMBER)

theorem union_memb (A B : FastSet) (hA : ValidB A) (hB : ValidB B) (u : Nat) :
    memb (union A B) u =
      ((memb A u || memb B u) &&
        decide (u < B.vectors.length * BITS_PER_NUMBER)) := by
  unfold union
  rw [operation_memb A B _
    (fun j b hb => by rw [Nat.testBit_lor, hA j b hb, hB j b hb]; rfl) u]
  rw [memb_eq_testBit A u, memb_eq_testBit B u, Nat.testBit_lor,
    decide_eq_decide.mpr (index_lt_iff u B.vectors.length), Bool.and_comm]

theorem intersection_memb (A B : FastSet) (hA : ValidB A) (u : Nat) :
    memb (intersection A B) u =
      ((memb A u && memb B u) &&
        decide (u < B.vectors.length * BITS_PER_NUMBER)) := by
  unfold intersection
  rw [operation_memb A B _
    (fun j b hb => by rw [Nat.testBit_land, hA j b hb]; rfl) u]
  rw [memb_eq_testBit A u, memb_eq_testBit B u, Nat.testBit_land,
    decide_eq_decide.mpr (index_lt_iff u B.vectors.length), Bool.and_comm]

theorem difference_memb (A B : FastSet) (hA : ValidB A) (u : Nat) :
    memb (difference A B) u =
      ((memb A u && !(memb B u)) &&
        decide (u < B.vectors.length * BITS_PER_NUMBER)) := by
  unfold difference
  rw [operation_memb A B _
    (fun j b hb => by rw [Nat.testBit_land, hA j b hb]; rfl) u]
  rw [memb_eq_testBit A u, memb_eq_testBit B u, Nat.testBit_land, jsNot_testBit]
  have hm32 : u % BITS_PER_NUMBER < 32 :=
    lt_of_lt_of_le (Nat.mod_lt u (by decide)) (by decide)
  rw [decide_eq_true hm32, Bool.true_and, Bool.and_true,
    decide_eq_decide.mpr (index_lt_iff u B.vectors.length), Bool.and_comm]

/-! ### Heap-model lemmas for the frame property -/

theorem foldl_storeAdd_length (values : List Nat) (r : Nat) :
    ∀ st : List FastSet,
      (values.foldl (fun st v => storeAdd st r v) st).length = st.length := by
  induction values with
  | nil => intro st; rfl
  | cons x xs ih =>
    intro st
    rw [List.foldl_cons, ih]
    unfold storeAdd
    exact List.length_set st r _

theorem foldl_storeAdd_getD_ne (values : List Nat) (r k : Nat) (hk : k ≠ r) :
    ∀ st : List FastSet,
      (values.foldl (fun st v => storeAdd st r v) st).getD k noSet =
        st.getD k noSet := by
  induction values with
  | nil => intro st; rfl
  | cons x xs ih =>
    intro st
    rw [List.foldl_cons, ih]
    unfold storeAdd
    exact getD_set_ne st noSet _ r k hk

theorem foldl_storeAdd_getD_eq (values : List Nat) (r : Nat) :
    ∀ st : List FastSet, r < st.length →
      (values.foldl (fun st v => storeAdd st r v) st).getD r noSet =
        values.foldl add (st.getD r noSet) := by
  induction values with
  | nil => intro st _; rfl
  | cons x xs ih =>
    intro st hr
    rw [List.foldl_cons, List.foldl_cons,
      ih _ (by unfold storeAdd; rw [List.length_set]; exact hr)]
    have hsa : (storeAdd st r x).getD r noSet = add (st.getD r noSet) x := by
      unfold storeAdd
      exact getD_set_eq st noSet _ r hr
    rw [hsa]

theorem operationStore_spec (st : List FastSet) (r1 r2 : Nat)
    (cb : Nat → Nat → Nat) :
    (operationStore st r1 r2 cb).2 = st.length ∧
    (operationStore st r1 r2 cb).1.length = st.length + 1 ∧
    (∀ k, k < st.length →
      (operationStore st r1 r2 cb).1.getD k noSet = st.getD k noSet) ∧
    (operationStore st r1 r2 cb).1.getD st.length noSet =
      operation (st.getD r1 noSet) (st.getD r2 noSet) cb := by
  simp only [operationStore, newFastSetStore]
  refine ⟨by trivial, ?_, ?_, ?_⟩
  · rw [foldl_storeAdd_length]
    rw [List.length_append]
    rfl
  · intro k hk
    rw [foldl_storeAdd_getD_ne _ _ k (by omega)]
    exact getD_append_lt st _ noSet k hk
  · rw [foldl_storeAdd_getD_eq _ _ _ (by rw [List.length_append]; simp)]
    have hD : (st ++ [({ vectors := [0], size := 0 } : FastSet)]).getD st.length
        noSet = { vectors := [0], size := 0 } := by
      rw [getD_append_ge st _ noSet st.length (le_refl _), Nat.sub_self]
      rfl
    rw [hD]
    rfl

theorem memb_lt (s : FastSet) (v : Nat) (h : memb s v = true) :
    getVectorIndex v < s.vectors.length := by
  unfold memb at h
  rw [Bool.and_eq_true] at h
  exact of_decide_eq_true h.1

/-! ### Claim theorems -/

/-- C1, counterexample: the claim "toHashKey(A) equals toHashKey(B) iff A and
B have identical membership" fails: `new([0,31,32,36])` (words `[0x1, 0x23]`)
and `new([0,4,5,32])` (words `[0x31, 0x2, 0]`) have different membership
(`4` is in the second only) yet share the key `"231"`, because per-word hex
strings are not zero-padded before concatenation. -/
theorem claim_C1_counterexample :
    toHashKey (FastSet.new [0, 31, 32, 36]) = toHashKey (FastSet.new [0, 4, 5, 32]) ∧
    memb (FastSet.new [0, 31, 32, 36]) 4 = false ∧
    memb (FastSet.new [0, 4, 5, 32]) 4 = true := by decide

/-- C1, amended: identical membership implies equal `toHashKey` (for word
arrays whose words fit in 31 bits, true of every reachable BitSet); the
converse direction of the original claim is false. -/
theorem claim_C1 (A B : FastSet) (hA : Valid A) (hB : Valid B)
    (h : ∀ v, memb A v = memb B v) : toHashKey A = toHashKey B :=
  toHashKey_congr A B (valid_validB A hA) (valid_validB B hB) h

/-- C1 witness: two states with the same membership but different trailing
zero padding get the same key. -/
theorem claim_C1_witness :
    Valid { vectors := [1], size := 1 } ∧
    Valid { vectors := [1, 0], size := 1 } ∧
    toHashKey { vectors := [1], size := 1 } =
      toHashKey { vectors := [1, 0], size := 1 } := by
  refine ⟨by decide, by decide,
    claim_C1 { vectors := [1], size := 1 } { vectors := [1, 0], size := 1 }
      (by decide) (by decide) ?_⟩
  intro v
  rw [memb_eq_testBit, memb_eq_testBit]
  show (List.getD [1] (getVectorIndex v) 0).testBit (v % BITS_PER_NUMBER) =
    (List.getD [1, 0] (getVectorIndex v) 0).testBit (v % BITS_PER_NUMBER)
  have h10 : ([1, 0] : List Nat) = [1] ++ List.replicate 1 0 := rfl
  rw [h10, getD_append_zeros]

/-- C2: for valid operands (all words below `2^31`, true of every reachable
BitSet), the membership of `A.union(B)`, `A.intersection(B)` and
`A.difference(B)` is the corresponding mathematical set operation on the
members of A and B restricted to values below `len(B.words) * 31`; when the
word arrays have equal length, union is the true mathematical union. -/
theorem claim_C2 (A B : FastSet) (hA : Valid A) (hB : Valid B) :
    (∀ v, memb (union A B) v =
      ((memb A v || memb B v) &&
        decide (v < B.vectors.length * BITS_PER_NUMBER))) ∧
    (∀ v, memb (intersection A B) v =
      ((memb A v && memb B v) &&
        decide (v < B.vectors.length * BITS_PER_NUMBER))) ∧
    (∀ v, memb (difference A B) v =
      ((memb A v && !(memb B v)) &&
        decide (v < B.vectors.length * BITS_PER_NUMBER))) ∧
    (A.vectors.length = B.vectors.length →
      ∀ v, memb (union A B) v = (memb A v || memb B v)) := by
  have hA' := valid_validB A hA
  have hB' := valid_validB B hB
  refine ⟨fun v => union_memb A B hA' hB' v,
    fun v => intersection_memb A B hA' v,
    fun v => difference_memb A B hA' v, ?_⟩
  intro hlen v
  rw [union_memb A B hA' hB' v]
  by_cases hm : (memb A v || memb B v) = true
  · rw [hm, Bool.true_and]
    have hv : v < B.vectors.length * BITS_PER_NUMBER := by
      rw [Bool.or_eq_true] at hm
      rcases hm with hma | hmb
      · have := memb_lt A v hma
        rw [hlen] at this
        exact (index_lt_iff v B.vectors.length).mp this
      · exact (index_lt_iff v B.vectors.length).mp (memb_lt B v hmb)
    rw [decide_eq_true hv]
  · have hm' : (memb A v || memb B v) = false := by simpa using hm
    rw [hm', Bool.false_and]

/-- C2 witness: with `A = new([0,1,35])` (three words) and `B = new([1,2])`
(one word), element 35 of A is dropped from the union (the early-exit bound),
while the small elements behave as the set operations dictate. -/
theorem claim_C2_witness :
    memb (union (FastSet.new [0, 1, 35]) (FastSet.new [1, 2])) 35 = false ∧
    memb (union (FastSet.new [0, 1, 35]) (FastSet.new [1, 2])) 1 = true ∧
    memb (intersection (FastSet.new [0, 1, 35]) (FastSet.new [1, 2])) 1 = true ∧
    memb (difference (FastSet.new [0, 1, 35]) (FastSet.new [1, 2])) 0 = true := by
  have h := claim_C2 (FastSet.new [0, 1, 35]) (FastSet.new [1, 2])
    (by decide) (by decide)
  exact ⟨(h.1 35).trans (by decide), (h.1 1).trans (by decide),
    (h.2.1 1).trans (by decide), (h.2.2.1 0).trans (by decide)⟩

/-- C3, counterexample: the growth loop is `while (value > capacity)`, not
`>=`: for `v = 31` on a fresh one-word array (capacity 31) no growth happens,
`v < capacity()` fails afterwards, and the word index 1 is not strictly
within the bounds of the one-word array. -/
theorem claim_C3_counterexample :
    maybeGrowVectors [0] 31 = [0] ∧
    ¬(31 < (maybeGrowVectors [0] 31).length * BITS_PER_NUMBER) ∧
    ¬(getVectorIndex 31 < (maybeGrowVectors [0] 31).length) := by decide

/-- C3, amended: after the growth step runs for `v` (on a non-empty word
array), `v ≤ capacity()` holds (not `v < capacity()`), the loop leaves the
array unchanged whenever `v ≤ capacity()` (it triggers only for
`v > capacity()`, not `v ≥ capacity()`), and the word index for `v` is at
most (not strictly less than) the length of the grown array. -/
theorem claim_C3 (l : List Nat) (v : Nat) (h : 0 < l.length) :
    v ≤ (maybeGrowVectors l v).length * BITS_PER_NUMBER ∧
    (v ≤ l.length * BITS_PER_NUMBER → maybeGrowVectors l v = l) ∧
    getVectorIndex v ≤ (maybeGrowVectors l v).length := by
  refine ⟨maybeGrow_capacity l v h, maybeGrow_eq_self l v, ?_⟩
  have hc := maybeGrow_capacity l v h
  unfold getVectorIndex
  rw [BITS_eq] at hc ⊢
  omega

/-- C3 witness: growing a fresh one-word array for value 100 triples the
array twice (to nine words, capacity 279 ≥ 100). -/
theorem claim_C3_witness :
    0 < ([0] : List Nat).length ∧
    100 ≤ (maybeGrowVectors [0] 100).length * BITS_PER_NUMBER ∧
    getVectorIndex 100 ≤ (maybeGrowVectors [0] 100).length ∧
    (maybeGrowVectors [0] 100).length = 9 := by
  have h := claim_C3 [0] 100 (by decide)
  exact ⟨by decide, h.1, h.2.2, by decide⟩

/-- C4, counterexample: `add(v)` followed by `remove(v)` does not restore the
prior state in general: on `S = new([0])` (words `[1]`), `add(1)` gives words
`[3]` but `remove(1)` applies the mask `~vector | (0 << bitIndex)` = `~vector`
and zeroes the whole word, losing the original member 0. -/
theorem claim_C4_counterexample :
    remove (add (FastSet.new [0]) 1) 1 ≠ FastSet.new [0] ∧
    (remove (add (FastSet.new [0]) 1) 1).vectors = [0] ∧
    (FastSet.new [0]).vectors = [1] := by decide

/-- C4, amended: if `v`'s word index is within the words array and that word
is zero (so `v` is absent, no growth is needed, and no other member shares
`v`'s word), then `add(v)` followed by `remove(v)` restores the exact words
array contents and the exact size. -/
theorem claim_C4 (S : FastSet) (v : Nat)
    (hidx : getVectorIndex v < S.vectors.length)
    (hw : S.vectors.getD (getVectorIndex v) 0 = 0) :
    remove (add S v) v = S := by
  have hvle : v < S.vectors.length * BITS_PER_NUMBER :=
    (index_lt_iff v S.vectors.length).mp hidx
  have hgrow : maybeGrowVectors S.vectors v = S.vectors :=
    maybeGrow_eq_self _ _ (le_of_lt hvle)
  have hbit0 : getBit 0 (v % BITS_PER_NUMBER) = '0' :=
    (getBit_eq_zero_iff _ _).mpr (Nat.zero_testBit _)
  have hadd : add S v = FastSet.mk
      (S.vectors.set (getVectorIndex v) (1 <<< (v % BITS_PER_NUMBER)))
      (S.size + 1) := by
    simp only [add, turnOn, hgrow, hw, hbit0, jsArraySet, hidx, if_true,
      Nat.zero_or]
  rw [hadd]
  have hlen1 : getVectorIndex v <
      (S.vectors.set (getVectorIndex v) (1 <<< (v % BITS_PER_NUMBER))).length := by
    rw [List.length_set]
    exact hidx
  have hgd1 : (S.vectors.set (getVectorIndex v)
      (1 <<< (v % BITS_PER_NUMBER))).getD (getVectorIndex v) 0 =
      1 <<< (v % BITS_PER_NUMBER) := getD_set_eq _ _ _ _ hidx
  have hbit1 : getBit (1 <<< (v % BITS_PER_NUMBER)) (v % BITS_PER_NUMBER) = '1' := by
    apply (getBit_eq_one_iff _ _).mpr
    rw [shiftLeft_one_eq]
    exact Nat.testBit_two_pow_self
  have hself : S.vectors.set (getVectorIndex v) 0 = S.vectors := by
    conv_rhs => rw [← set_getD_self S.vectors 0 (getVectorIndex v) hidx]
    rw [hw]
  have hoff : off (FastSet.mk
      (S.vectors.set (getVectorIndex v) (1 <<< (v % BITS_PER_NUMBER)))
      (S.size + 1)) v = (true, FastSet.mk S.vectors (S.size + 1)) := by
    simp only [off]
    rw [if_pos hlen1, hgd1, if_pos hbit1, Nat.zero_shiftLeft, Nat.or_zero,
      land_jsNot_self]
    simp only [jsArraySet, hlen1, if_true]
    rw [List.set_set, hself]
  simp only [remove, hoff]
  rw [if_pos trivial, add_sub_cancel_right]

/-- C4 witness: on `new([32])` (words `[0, 2, 0]`), value 0 lives in word 0,
which is zero, so `add(0)` then `remove(0)` restores the exact state. -/
theorem claim_C4_witness :
    getVectorIndex 0 < (FastSet.new [32]).vectors.length ∧
    (FastSet.new [32]).vectors.getD (getVectorIndex 0) 0 = 0 ∧
    remove (add (FastSet.new [32]) 0) 0 = FastSet.new [32] :=
  ⟨by decide, by decide, claim_C4 (FastSet.new [32]) 0 (by decide) (by decide)⟩

/-- C5, counterexample: `toHashKey` of an empty BitSet is the empty string,
not `"0"`: the stripping loop pops every zero word, including the last one
(`vectors[-1]` is `undefined`, which is not `=== 0`, so popping continues to
the empty array). -/
theorem claim_C5_counterexample :
    toHashKey (FastSet.new []) ≠ "0" ∧ toHashKey (FastSet.new []) = "" := by
  decide

/-- C5, amended: for every BitSet with no members (all words zero, however
many words are allocated), `toHashKey` returns the empty string. -/
theorem claim_C5 (S : FastSet) (h : ∀ w ∈ S.vectors, w = 0) :
    toHashKey S = "" := by
  unfold toHashKey
  have hstrip : stripTrailingZeros S.vectors = [] := by
    unfold stripTrailingZeros
    have hd : S.vectors.reverse.dropWhile (fun vector => vector == 0) = [] :=
      List.dropWhile_eq_nil_iff.mpr
        (fun x hx => by rw [h x (List.mem_reverse.mp hx)]; rfl)
    rw [hd]
    rfl
  rw [hstrip]
  rfl

/-- C5 witness: the freshly constructed empty set (one zero word). -/
theorem claim_C5_witness :
    (∀ w ∈ (FastSet.new []).vectors, w = 0) ∧ toHashKey (FastSet.new []) = "" :=
  ⟨by decide, claim_C5 (FastSet.new []) (by decide)⟩

/-- C6: constructing a BitSet from the single value 31 yields
`word[0] = 0`, `word[1] = 1`, `size = 1` and `capacity = 62` (the value 31
equals the initial capacity, so no growth runs and the out-of-range write
appends exactly one word). -/
theorem claim_C6 :
    (FastSet.new [31]).vectors = [0, 1] ∧ (FastSet.new [31]).size = 1 ∧
    capacity (FastSet.new [31]) = 62 := by decide

/-- C7, counterexample: two insertion orders of the same multiset can end
with word arrays of different lengths: `new([31, 93])` has six words while
`new([93, 31])` has four (for 93 the loop stops at capacity 93 = value and
the out-of-range write appends one word, versus doubling twice from a
two-word array), so the claim of identical `words` arrays fails. -/
theorem claim_C7_counterexample :
    (FastSet.new [31, 93]).vectors ≠ (FastSet.new [93, 31]).vectors ∧
    (FastSet.new [31, 93]).vectors.length = 6 ∧
    (FastSet.new [93, 31]).vectors.length = 4 ∧
    List.Perm [31, 93] [93, 31] := by decide

/-- C7, amended: two BitSets built from the same multiset of values in any
two insertion orders have identical membership, identical `size` and
identical `toHashKey()`; the `words` arrays agree up to (possibly different
amounts of) trailing zero padding but can differ in length. -/
theorem claim_C7 (l1 l2 : List Nat) (h : l1.Perm l2) :
    (∀ u, memb (FastSet.new l1) u = memb (FastSet.new l2) u) ∧
    (FastSet.new l1).size = (FastSet.new l2).size ∧
    toHashKey (FastSet.new l1) = toHashKey (FastSet.new l2) := by
  obtain ⟨hm, hs⟩ := foldl_add_perm l1 l2 h { vectors := [0], size := 0 }
  exact ⟨hm, hs, toHashKey_congr _ _ (validB_new l1) (validB_new l2) hm⟩

/-- C7 witness: the two orders from the counterexample still agree on
membership, size and key. -/
theorem claim_C7_witness :
    List.Perm [31, 93] [93, 31] ∧
    (FastSet.new [31, 93]).size = (FastSet.new [93, 31]).size ∧
    toHashKey (FastSet.new [31, 93]) = toHashKey (FastSet.new [93, 31]) := by
  have h := claim_C7 [31, 93] [93, 31] (by decide)
  exact ⟨by decide, h.2.1, h.2.2⟩

/-- C8 (code bug): the invariant `size == popcount(concat(words))` is broken
by `remove`: `off` computes `mask = ~vector | (0 << bitIndex)`, which is
`~vector`, so `vector &= mask` zeroes the whole word; on
`new([0,1]).remove(0)` (words `[3]` before) the word becomes 0 — both
members are cleared — while `size` only decrements to 1, so `size = 1` but
popcount is 0.  The intended mask is `~(1 << bitIndex)`; `(0 << bitIndex)`
is identically zero, contradicting `off`'s own documentation ("turn off the
bit"). -/
theorem claim_C8 :
    (remove (FastSet.new [0, 1]) 0).size = 1 ∧
    popcountWords ((remove (FastSet.new [0, 1]) 0).vectors) = 0 ∧
    (remove (FastSet.new [0, 1]) 0).vectors = [0] := by decide

/-- C9: in the heap model, `union`, `intersection` and `difference` each
allocate a fresh object (reference = old store length, distinct from both
operand references), leave every pre-existing object — in particular both
operands — exactly unchanged, and store at the fresh reference exactly the
set built by `new FastSet(values)` from the decoded per-word results. -/
theorem claim_C9 (st : List FastSet) (r1 r2 : Nat)
    (h1 : r1 < st.length) (h2 : r2 < st.length) :
    ((unionStore st r1 r2).2 = st.length ∧
      (unionStore st r1 r2).2 ≠ r1 ∧ (unionStore st r1 r2).2 ≠ r2 ∧
      (unionStore st r1 r2).1.length = st.length + 1 ∧
      (∀ k, k < st.length →
        (unionStore st r1 r2).1.getD k noSet = st.getD k noSet) ∧
      (unionStore st r1 r2).1.getD (unionStore st r1 r2).2 noSet =
        union (st.getD r1 noSet) (st.getD r2 noSet)) ∧
    ((intersectionStore st r1 r2).2 = st.length ∧
      (intersectionStore st r1 r2).2 ≠ r1 ∧ (intersectionStore st r1 r2).2 ≠ r2 ∧
      (intersectionStore st r1 r2).1.length = st.length + 1 ∧
      (∀ k, k < st.length →
        (intersectionStore st r1 r2).1.getD k noSet = st.getD k noSet) ∧
      (intersectionStore st r1 r2).1.getD (intersectionStore st r1 r2).2 noSet =
        intersection (st.getD r1 noSet) (st.getD r2 noSet)) ∧
    ((differenceStore st r1 r2).2 = st.length ∧
      (differenceStore st r1 r2).2 ≠ r1 ∧ (differenceStore st r1 r2).2 ≠ r2 ∧
      (differenceStore st r1 r2).1.length = st.length + 1 ∧
      (∀ k, k < st.length →
        (differenceStore st r1 r2).1.getD k noSet = st.getD k noSet) ∧
      (differenceStore st r1 r2).1.getD (differenceStore st r1 r2).2 noSet =
        difference (st.getD r1 noSet) (st.getD r2 noSet)) := by
  refine ⟨?_, ?_, ?_⟩
  · unfold unionStore
    obtain ⟨ha, hb, hc, hd⟩ := operationStore_spec st r1 r2
      (fun vector otherVector => vector ||| otherVector)
    exact ⟨ha, by omega, by omega, hb, hc, by rw [ha]; exact hd⟩
  · unfold intersectionStore
    obtain ⟨ha, hb, hc, hd⟩ := operationStore_spec st r1 r2
      (fun vector otherVector => vector &&& otherVector)
    exact ⟨ha, by omega, by omega, hb, hc, by rw [ha]; exact hd⟩
  · unfold differenceStore
    obtain ⟨ha, hb, hc, hd⟩ := operationStore_spec st r1 r2
      (fun vector otherVector => vector &&& jsNot otherVector)
    exact ⟨ha, by omega, by omega, hb, hc, by rw [ha]; exact hd⟩

/-- C9 witness: a two-object store; the union is written to the fresh
reference 2 and both operands are untouched. -/
theorem claim_C9_witness :
    (unionStore [FastSet.new [0], FastSet.new [31]] 0 1).2 = 2 ∧
    (unionStore [FastSet.new [0], FastSet.new [31]] 0 1).1.getD 0 noSet =
      FastSet.new [0] ∧
    (unionStore [FastSet.new [0], FastSet.new [31]] 0 1).1.getD 1 noSet =
      FastSet.new [31] ∧
    (unionStore [FastSet.new [0], FastSet.new [31]] 0 1).1.getD 2 noSet =
      union (FastSet.new [0]) (FastSet.new [31]) := by
  have h := claim_C9 [FastSet.new [0], FastSet.new [31]] 0 1
    (by decide) (by decide)
  obtain ⟨⟨ha, -, -, -, hc, hd⟩, -, -⟩ := h
  exact ⟨ha, (hc 0 (by decide)).trans (by decide),
    (hc 1 (by decide)).trans (by decide), hd⟩

/-- C10: for `v` exactly equal to the current capacity (word index equal to
the words length), `add(v)` runs no growth iteration (`v > capacity` is
false); the out-of-range word write extends the array by exactly one word,
so capacity grows by 31 rather than tripling; afterwards `v` is a member and
`size` has increased by one. -/
theorem claim_C10 (S : FastSet) (v : Nat)
    (h : v = S.vectors.length * BITS_PER_NUMBER) :
    maybeGrowVectors S.vectors v = S.vectors ∧
    (add S v).vectors.length = S.vectors.length + 1 ∧
    capacity (add S v) = capacity S + BITS_PER_NUMBER ∧
    memb (add S v) v = true ∧
    (add S v).size = S.size + 1 := by
  have hgrow : maybeGrowVectors S.vectors v = S.vectors :=
    maybeGrow_eq_self _ _ (le_of_eq h)
  have hidx : getVectorIndex v = S.vectors.length := by
    unfold getVectorIndex
    rw [h]
    exact Nat.mul_div_cancel _ (by decide)
  have hb0 : v % BITS_PER_NUMBER = 0 := by
    rw [h]
    exact Nat.mul_mod_left _ _
  have hmemb : memb S v = false := by
    rw [memb_eq_testBit, getD_ge _ _ _ (le_of_eq hidx.symm), Nat.zero_testBit]
  have hgd : S.vectors.getD S.vectors.length 0 = 0 :=
    getD_ge _ _ _ (le_refl _)
  have hbit0 : getBit 0 0 = '0' := by decide
  have hadd : add S v = FastSet.mk (S.vectors ++ [1]) (S.size + 1) := by
    simp only [add, turnOn, hgrow, hidx, hb0, hgd, hbit0, jsArraySet,
      lt_self_iff_false, if_false, if_true, Nat.shiftLeft_zero, Nat.zero_or,
      Nat.sub_self, List.replicate, List.nil_append, List.append_nil]
  have hlen2 : (add S v).vectors.length = S.vectors.length + 1 := by
    rw [hadd]
    show (S.vectors ++ [1]).length = S.vectors.length + 1
    rw [List.length_append]
    rfl
  refine ⟨hgrow, hlen2, ?_, ?_, ?_⟩
  · rw [capacity_def, capacity_def, hlen2, Nat.succ_mul]
  · rw [add_memb, hmemb, beq_self_eq_true]
    rfl
  · rw [add_size, hmemb]
    rfl

/-- C10 witness: the empty constructor state has one word and capacity 31;
`add(31)` appends exactly one word (capacity 62), makes 31 a member and
sets size to 1. -/
theorem claim_C10_witness :
    31 = (FastSet.new []).vectors.length * BITS_PER_NUMBER ∧
    (add (FastSet.new []) 31).vectors.length = 2 ∧
    capacity (add (FastSet.new []) 31) = 62 ∧
    memb (add (FastSet.new []) 31) 31 = true ∧
    (add (FastSet.new []) 31).size = 1 := by
  have h := claim_C10 (FastSet.new []) 31 (by decide)
  exact ⟨by decide, h.2.1.trans (by decide), h.2.2.1.trans (by decide),
    h.2.2.2.1, h.2.2.2.2.trans (by decide)⟩
